import Mathlib

/-!
Verification of the real_selection streaming TTS pipeline.

This file shallowly embeds the parts of `src/real_selection/main.py` and
`src/real_selection/clipboard.py` that the verified properties are about:

* the text normalizer `limpar_texto_para_tts` (both variants), modelled over
  `List Char` with Python's ASCII whitespace semantics;
* the producer loop `AudioProducerThread.run` as a trace-producing function;
* the consumer loop `AudioConsumerThread.run` as a trace-consuming function;
* the full producer/consumer run as a small-step transition system over a
  bounded FIFO channel (`queue.Queue(maxsize=10)`), with ghost histories of
  pushed and dequeued items;
* the reconciliation performed by `processar_tts`.
-/

set_option autoImplicit false

/-- Horizontal whitespace: the character class `[ \t]` of the second
substitution in main.py's `limpar_texto_para_tts` (line 147). -/
def isHt (c : Char) : Bool := c == ' ' || c == '\t'

/-- ASCII whitespace as stripped by Python's `str.strip()` and matched by the
`\s` class: space, tab, newline, carriage return, vertical tab (11), form
feed (12).  (The model restricts Python's Unicode whitespace to ASCII.) -/
def isPyWs (c : Char) : Bool :=
  c == ' ' || c == '\t' || c == '\n' || c == '\r' ||
  c == Char.ofNat 11 || c == Char.ofNat 12

/-- One pass of `re.sub(r'(?<!\n)\n(?!\n)', ' ', texto)` (main.py line 144,
clipboard.py line 36): replace every newline that is neither preceded nor
followed by another newline with a single space.  `prevNl` says whether the
previous character of the original text is a newline (the regex lookbehind
inspects the original subject string, which `re.sub` never mutates). -/
def sub1Aux (prevNl : Bool) : List Char → List Char
  | [] => []
  | c :: rest =>
    if c == '\n' && !prevNl && !(rest.head? == some '\n')
    then ' ' :: sub1Aux true rest
    else c :: sub1Aux (c == '\n') rest

/-- The first substitution of both normalizers. -/
def sub1 (l : List Char) : List Char := sub1Aux false l

/-- Worker for `collapseRuns`: `inRun` says whether the previous character
belonged to a (already replaced) run of class-`p` characters.  The first
character of each run is replaced by a single space, the following ones are
dropped. -/
def collapseRunsAux (p : Char → Bool) (inRun : Bool) : List Char → List Char
  | [] => []
  | c :: rest =>
    if p c then
      if inRun then collapseRunsAux p true rest
      else ' ' :: collapseRunsAux p true rest
    else c :: collapseRunsAux p false rest

/-- `re.sub` of `cls+` by a space, for a character class `p`: every maximal
run of characters satisfying `p` becomes a single space.  With `p = isHt`
this is main.py line 147 (`[ \t]+`); with `p = isPyWs` it is clipboard.py
line 39 (`\s+`). -/
def collapseRuns (p : Char → Bool) (l : List Char) : List Char :=
  collapseRunsAux p false l

/-- Drop the maximal suffix of characters satisfying `p`. -/
def dropWhileRight (p : Char → Bool) (l : List Char) : List Char :=
  (l.reverse.dropWhile p).reverse

/-- Python `str.strip()` (ASCII whitespace model): remove leading and
trailing whitespace. -/
def pyStrip (l : List Char) : List Char := dropWhileRight isPyWs (l.dropWhile isPyWs)

/-- The cleaned text computed inside main.py's `limpar_texto_para_tts`
(lines 144-148), before the final emptiness test. -/
def textoLimpo (texto : List Char) : List Char :=
  pyStrip (collapseRuns isHt (sub1 texto))

/-- `limpar_texto_para_tts` (main.py lines 129-152). -/
def limpar_texto_para_tts (texto : List Char) : Option (List Char) :=
  if texto = [] then none
  else if textoLimpo texto = [] then none
  else some (textoLimpo texto)

namespace Clipboard

/-- The cleaned text of clipboard.py's `limpar_texto_para_tts`
(lines 36-41): its second substitution collapses every `\s+` run, newlines
included. -/
def textoLimpo (texto : List Char) : List Char :=
  pyStrip (collapseRuns isPyWs (sub1 texto))

/-- `limpar_texto_para_tts` (clipboard.py lines 27-41).  Unlike main.py's
variant it returns the stripped text even when stripping leaves it empty. -/
def limpar_texto_para_tts (texto : List Char) : Option (List Char) :=
  if texto = [] then none else some (textoLimpo texto)

end Clipboard

/-- Scanner for the "no isolated newline" invariant: every newline in the
list is adjacent to another newline.  `prevNl` says whether the previous
character is a newline. -/
def nlOkAux (prevNl : Bool) : List Char → Bool
  | [] => true
  | c :: rest =>
    if c == '\n' then (prevNl || rest.head? == some '\n') && nlOkAux true rest
    else nlOkAux false rest

/-- Every newline has an adjacent newline (no single, isolated newline). -/
def nlOk (l : List Char) : Bool := nlOkAux false l

/-- Scanner for "no run of two or more space/tab characters": `prevHt` says
whether the previous character is horizontal whitespace. -/
def noDoubleHtAux (prevHt : Bool) : List Char → Bool
  | [] => true
  | c :: rest => !(prevHt && isHt c) && noDoubleHtAux (isHt c) rest

/-- No run of two or more space/tab characters (no two adjacent ones). -/
def noDoubleHt (l : List Char) : Bool := noDoubleHtAux false l

/-- No leading and no trailing whitespace character. -/
def noEdgeWs (l : List Char) : Bool :=
  l.head?.all (fun c => !isPyWs c) && l.getLast?.all (fun c => !isPyWs c)

/-! ## Producer and consumer, trace level

`AudioProducerThread.run` (main.py lines 182-215) iterates the generation
engine's lazy sequence.  A yielded value either carries audio
(`result.audio is not None`, modelled as `some segment`) or is the engine's
"no audio" marker (`result.audio is None`, modelled as `none`); the engine
may instead raise, which ends the sequence.  Sample values are opaque; a
segment is its list of samples. -/

/-- One sample of audio (value irrelevant to the verified properties). -/
abbrev Sample := Int

/-- `AudioSegment`: the sample array of one generated chunk. -/
abbrev Segment := List Sample

/-- One event of the generation engine's sequence as observed by the
producer loop: a yielded result (with optional audio), or an exception. -/
inductive GenEvent where
  | result (audio : Option Segment)
  | err
deriving DecidableEq

/-- One value travelling through the `queue.Queue`: an audio chunk, or the
`None` termination sentinel (main.py lines 205 and 215). -/
inductive QItem where
  | seg (s : Segment)
  | sentinel
deriving DecidableEq

/-- The results the engine yields before it either ends or raises. -/
def engineYields : List GenEvent → List (Option Segment)
  | [] => []
  | .err :: _ => []
  | .result r :: rest => r :: engineYields rest

/-- Whether the engine raises instead of ending its sequence. -/
def engineRaises : List GenEvent → Bool
  | [] => false
  | .err :: _ => true
  | .result _ :: rest => engineRaises rest

/-- Every segment the engine yields is non-empty (the generation engine
interface guarantees yielded sample arrays are non-empty). -/
def yieldsNonempty (evs : List GenEvent) : Bool :=
  evs.all fun e =>
    match e with
    | .result (some c) => !c.isEmpty
    | _ => true

/-- `AudioProducerThread.run` (main.py lines 182-215) as a trace function:
given the engine's event sequence, returns the list of items put into the
queue in order, the error slot (`self.erro`), and the final `num_chunks`.
Chunks with audio are pushed and counted; "no audio" results are skipped;
both normal completion and a raised exception push the sentinel. -/
def producerProcess : List GenEvent → List QItem × Bool × Nat
  | [] => ([QItem.sentinel], false, 0)
  | .err :: _ => ([QItem.sentinel], true, 0)
  | .result none :: rest => producerProcess rest
  | .result (some c) :: rest =>
    let r := producerProcess rest
    (QItem.seg c :: r.1, r.2.1, r.2.2 + 1)

/-- `AudioConsumerThread.run`'s playback loop (main.py lines 257-269) as a
trace function over the items it dequeues in order.  `wf n` says whether the
`n`-th call to `stream.write` raises (0-based).  Returns the final
`chunks_tocados` counter (note: the code increments it BEFORE writing), the
list of segments whose write completed, and whether a write failed. -/
def consumerLoop (wf : Nat → Bool) : List QItem → Nat → Nat × List Segment × Bool
  | [], n => (n, [], false)
  | QItem.sentinel :: _, n => (n, [], false)
  | QItem.seg c :: rest, n =>
    if wf n then (n + 1, [], true)
    else
      let r := consumerLoop wf rest (n + 1)
      (r.1, c :: r.2.1, r.2.2)

/-! ## The pipeline as a transition system

`processar_tts` (main.py lines 334-387) runs one `AudioProducerThread` and
one `AudioConsumerThread` around one `queue.Queue(maxsize=10)`.  The two
threads interact only through the queue, so the run is modelled as a
small-step machine: one step is one queue operation (or one local action),
interleaved arbitrarily.  `pushed` and `dequeued` are ghost histories of all
items ever pushed / dequeued. -/

/-- Producer control point: looping over the engine, about to put the
sentinel, or finished. -/
inductive ProdPhase where
  | generating
  | sentinelPending
  | done
deriving DecidableEq

/-- Consumer control point: before `pyaudio.open`, in the playback loop, or
finished. -/
inductive ConsPhase where
  | opening
  | running
  | done
deriving DecidableEq

/-- Behavior of the audio sink in one run: whether the `open` call raises,
and which writes (0-based) raise. -/
structure SinkCfg where
  openFails : Bool
  writeFails : Nat → Bool

/-- A sink that never fails. -/
def healthySink (cfg : SinkCfg) : Prop :=
  cfg.openFails = false ∧ ∀ n, cfg.writeFails n = false

/-- State of one `processar_tts` run. -/
structure PState where
  pending : List GenEvent
  prodPhase : ProdPhase
  prodErr : Bool
  numChunks : Nat
  buffer : List QItem
  pushed : List QItem
  dequeued : List QItem
  consPhase : ConsPhase
  consErr : Bool
  chunksTocados : Nat
  played : List Segment

/-- Initial state of a run on engine events `evs` (main.py lines 343-366:
fresh empty queue, both counters zero, both error slots `None`). -/
def initState (evs : List GenEvent) : PState :=
  { pending := evs
    prodPhase := .generating
    prodErr := false
    numChunks := 0
    buffer := []
    pushed := []
    dequeued := []
    consPhase := .opening
    consErr := false
    chunksTocados := 0
    played := [] }

/-- The audio chunks in a queue-item history, in order. -/
def segsOf (l : List QItem) : List Segment :=
  l.filterMap fun it => match it with | QItem.seg c => some c | QItem.sentinel => none

/-- One interleaved step of the producer/consumer pair.  Queue puts are
guarded by `buffer.length < 10` (`queue.Queue(maxsize=10)`, main.py
line 344): a put on a full queue blocks, i.e. contributes no step. -/
inductive Step (cfg : SinkCfg) : PState → PState → Prop where
  | skipMarker (s : PState) (rest : List GenEvent)
      (hp : s.prodPhase = .generating) (hq : s.pending = GenEvent.result none :: rest) :
      Step cfg s { s with pending := rest }
  | pushChunk (s : PState) (c : Segment) (rest : List GenEvent)
      (hp : s.prodPhase = .generating)
      (hq : s.pending = GenEvent.result (some c) :: rest)
      (hb : s.buffer.length < 10) :
      Step cfg s { s with
        pending := rest
        buffer := s.buffer ++ [QItem.seg c]
        pushed := s.pushed ++ [QItem.seg c]
        numChunks := s.numChunks + 1 }
  | prodRaise (s : PState) (rest : List GenEvent)
      (hp : s.prodPhase = .generating) (hq : s.pending = GenEvent.err :: rest) :
      Step cfg s { s with pending := rest, prodErr := true, prodPhase := .sentinelPending }
  | prodFinish (s : PState)
      (hp : s.prodPhase = .generating) (hq : s.pending = []) :
      Step cfg s { s with prodPhase := .sentinelPending }
  | pushSentinel (s : PState)
      (hp : s.prodPhase = .sentinelPending) (hb : s.buffer.length < 10) :
      Step cfg s { s with
        buffer := s.buffer ++ [QItem.sentinel]
        pushed := s.pushed ++ [QItem.sentinel]
        prodPhase := .done }
  | consOpenOk (s : PState)
      (hc : s.consPhase = .opening) (ho : cfg.openFails = false) :
      Step cfg s { s with consPhase := .running }
  | consOpenFail (s : PState)
      (hc : s.consPhase = .opening) (ho : cfg.openFails = true) :
      Step cfg s { s with consErr := true, consPhase := .done }
  | consSentinel (s : PState) (rest : List QItem)
      (hc : s.consPhase = .running) (hb : s.buffer = QItem.sentinel :: rest) :
      Step cfg s { s with
        buffer := rest
        dequeued := s.dequeued ++ [QItem.sentinel]
        consPhase := .done }
  | consSegOk (s : PState) (c : Segment) (rest : List QItem)
      (hc : s.consPhase = .running) (hb : s.buffer = QItem.seg c :: rest)
      (hw : cfg.writeFails s.chunksTocados = false) :
      Step cfg s { s with
        buffer := rest
        dequeued := s.dequeued ++ [QItem.seg c]
        chunksTocados := s.chunksTocados + 1
        played := s.played ++ [c] }
  | consSegFail (s : PState) (c : Segment) (rest : List QItem)
      (hc : s.consPhase = .running) (hb : s.buffer = QItem.seg c :: rest)
      (hw : cfg.writeFails s.chunksTocados = true) :
      Step cfg s { s with
        buffer := rest
        dequeued := s.dequeued ++ [QItem.seg c]
        chunksTocados := s.chunksTocados + 1
        consErr := true
        consPhase := .done }

/-- States reachable in a run on engine events `evs` with sink `cfg`. -/
def Reachable (cfg : SinkCfg) (evs : List GenEvent) (s : PState) : Prop :=
  Relation.ReflTransGen (Step cfg) (initState evs) s

/-- No step applies: every thread is finished or blocked. -/
def Stuck (cfg : SinkCfg) (s : PState) : Prop :=
  ∀ s', ¬ Step cfg s s'

/-- The reconciliation of `processar_tts` (main.py lines 376-387): `False`
if either thread recorded an error, otherwise the comparison
`consumer.chunks_tocados == producer.num_chunks`. -/
def runOutcome (s : PState) : Bool :=
  if s.prodErr || s.consErr then false
  else s.chunksTocados == s.numChunks

/-- The parameters of the `pyaudio` sink-open call in
`AudioConsumerThread.run` (main.py lines 245-252).  The sample format
(`paFloat32`) is left implicit; the remaining arguments are copied from the
call site.  `outputDeviceIndex = some n` means the call embeds the literal
device index `n`; `none` would mean the system default / an externally
supplied selector. -/
structure SinkOpenParams where
  channels : Nat
  rate : Nat
  output : Bool
  outputDeviceIndex : Option Nat
  framesPerBuffer : Nat
deriving DecidableEq

/-- The sink-open call exactly as written at main.py lines 245-252,
including the `output_device_index=9` argument the source itself marks
`FIXME: hardcoded`. -/
def consumerSinkOpen : SinkOpenParams :=
  { channels := 1
    rate := 24000
    output := true
    outputDeviceIndex := some 9
    framesPerBuffer := 2048 }

/-- A concrete sink that never fails, for exercising theorems on runs. -/
def sinkOk : SinkCfg := ⟨false, fun _ => false⟩

example : sub1 ['a', '\n', 'b'] = ['a', ' ', 'b'] := by decide
example : sub1 ['a', '\n', '\n', 'b'] = ['a', '\n', '\n', 'b'] := by decide
example : limpar_texto_para_tts ['a', '\n', '\n'] = some ['a'] := by decide
example : Clipboard.limpar_texto_para_tts ['a', '\n', '\n'] = some ['a'] := by decide
example : limpar_texto_para_tts ['A', '\n', '\n', 'B'] = some ['A', '\n', '\n', 'B'] := by decide
example : Clipboard.limpar_texto_para_tts ['A', '\n', '\n', 'B'] = some ['A', ' ', 'B'] := by decide
example : limpar_texto_para_tts ['x', '\t', '\t', 'y'] = some ['x', ' ', 'y'] := by decide
example : limpar_texto_para_tts ['\n'] = none := by decide
example : Clipboard.limpar_texto_para_tts ['\n'] = some [] := by decide

/-! ## Producer trace lemmas -/

/-- Closed form of the producer trace: the queue receives exactly the
non-`None` audio results yielded before any engine exception, in order,
followed by one sentinel; `erro` is set iff the engine raised; `num_chunks`
counts the pushed chunks. -/
theorem producerProcess_eq (evs : List GenEvent) :
    producerProcess evs =
      (((engineYields evs).filterMap id).map QItem.seg ++ [QItem.sentinel],
        engineRaises evs,
        ((engineYields evs).filterMap id).length) := by
  induction evs with
  | nil => rfl
  | cons e rest ih =>
    cases e with
    | err => rfl
    | result r =>
      cases r with
      | none => simpa [producerProcess, engineYields, engineRaises] using ih
      | some c => simp [producerProcess, engineYields, engineRaises, ih]

/-- A segment yielded by an engine whose yields are all non-empty is
non-empty. -/
theorem engineYields_nonempty {evs : List GenEvent} (h : yieldsNonempty evs = true)
    {c : Segment} (hc : some c ∈ engineYields evs) : c ≠ [] := by
  induction evs with
  | nil => simp [engineYields] at hc
  | cons e rest ih =>
    cases e with
    | err => simp [engineYields] at hc
    | result r =>
      simp only [yieldsNonempty, List.all_cons, Bool.and_eq_true] at h
      simp only [engineYields, List.mem_cons] at hc
      rcases hc with hc | hc
      · subst hc
        simpa [List.isEmpty_iff] using h.1
      · exact ih (by simpa [yieldsNonempty] using h.2) hc

/-- The consumer counter always equals the number of fully written segments
plus one more when a write raised (the counter is incremented before
`stream.write`). -/
theorem consumerLoop_count (wf : Nat → Bool) :
    ∀ (items : List QItem) (n : Nat),
      (consumerLoop wf items n).1 =
        n + ((consumerLoop wf items n).2.1).length +
          (if (consumerLoop wf items n).2.2 then 1 else 0)
  | [], n => by simp [consumerLoop]
  | QItem.sentinel :: rest, n => by simp [consumerLoop]
  | QItem.seg c :: rest, n => by
    by_cases hw : wf n
    · simp [consumerLoop, hw]
    · have ih := consumerLoop_count wf rest (n + 1)
      simp only [consumerLoop, hw, if_false, Bool.false_eq_true]
      simp only [List.length_cons]
      omega

/-! ## Machine invariant -/

/-- The audio chunks of a history split over append. -/
theorem segsOf_append (l₁ l₂ : List QItem) :
    segsOf (l₁ ++ l₂) = segsOf l₁ ++ segsOf l₂ := by
  simp [segsOf, List.filterMap_append]

/-- Inductive invariant of one `processar_tts` run: the queue respects its
capacity, the dequeue history followed by the queue content is exactly the
push history (FIFO conservation), a dequeued sentinel is unique, last, and
stops the consumer, the fully written segments are a prefix of the dequeued
chunks (all of them while the consumer is alive), the sentinel is pushed
exactly when the producer has finished, and with a healthy sink the
consumer only stops after dequeuing the sentinel. -/
structure RunInv (cfg : SinkCfg) (s : PState) : Prop where
  cap : s.buffer.length ≤ 10
  fifo : s.dequeued ++ s.buffer = s.pushed
  sentDeq : QItem.sentinel ∈ s.dequeued →
    s.consPhase = ConsPhase.done ∧
      ∃ pre, s.dequeued = pre ++ [QItem.sentinel] ∧ QItem.sentinel ∉ pre
  playedPre : ∃ t, s.played ++ t = segsOf s.dequeued
  playedRun : s.consPhase = ConsPhase.running → s.played = segsOf s.dequeued
  sentPushed : QItem.sentinel ∈ s.pushed → s.prodPhase = ProdPhase.done
  donePushed : s.prodPhase = ProdPhase.done → QItem.sentinel ∈ s.pushed
  openingNothing : s.consPhase = ConsPhase.opening → s.dequeued = [] ∧ s.played = []
  consDoneHealthy : healthySink cfg → s.consPhase = ConsPhase.done →
    QItem.sentinel ∈ s.dequeued

/-- The initial state satisfies the invariant. -/
theorem inv_init (cfg : SinkCfg) (evs : List GenEvent) : RunInv cfg (initState evs) := by
  constructor <;> simp [initState, segsOf]

/-- Every step preserves the invariant. -/
theorem inv_step {cfg : SinkCfg} {s s' : PState} (h : RunInv cfg s) (hs : Step cfg s s') :
    RunInv cfg s' := by
  cases hs with
  | skipMarker rest hp hq =>
    exact ⟨h.cap, h.fifo, h.sentDeq, h.playedPre, h.playedRun, h.sentPushed,
      h.donePushed, h.openingNothing, h.consDoneHealthy⟩
  | pushChunk c rest hp hq hb =>
    refine ⟨?_, ?_, ?_, ?_, ?_, ?_, ?_, ?_, ?_⟩ <;> dsimp only
    · simp only [List.length_append, List.length_singleton]
      omega
    · rw [← List.append_assoc, h.fifo]
    · exact h.sentDeq
    · exact h.playedPre
    · exact h.playedRun
    · intro hm
      rcases List.mem_append.1 hm with hm | hm
      · have hd := h.sentPushed hm
        rw [hp] at hd
        simp at hd
      · simp at hm
    · intro hd
      rw [hp] at hd
      simp at hd
    · exact h.openingNothing
    · exact h.consDoneHealthy
  | prodRaise rest hp hq =>
    refine ⟨?_, ?_, ?_, ?_, ?_, ?_, ?_, ?_, ?_⟩ <;> dsimp only
    · exact h.cap
    · exact h.fifo
    · exact h.sentDeq
    · exact h.playedPre
    · exact h.playedRun
    · intro hm
      have hd := h.sentPushed hm
      rw [hp] at hd
      simp at hd
    · intro hd
      simp at hd
    · exact h.openingNothing
    · exact h.consDoneHealthy
  | prodFinish hp hq =>
    refine ⟨?_, ?_, ?_, ?_, ?_, ?_, ?_, ?_, ?_⟩ <;> dsimp only
    · exact h.cap
    · exact h.fifo
    · exact h.sentDeq
    · exact h.playedPre
    · exact h.playedRun
    · intro hm
      have hd := h.sentPushed hm
      rw [hp] at hd
      simp at hd
    · intro hd
      simp at hd
    · exact h.openingNothing
    · exact h.consDoneHealthy
  | pushSentinel hp hb =>
    refine ⟨?_, ?_, ?_, ?_, ?_, ?_, ?_, ?_, ?_⟩ <;> dsimp only
    · simp only [List.length_append, List.length_singleton]
      omega
    · rw [← List.append_assoc, h.fifo]
    · exact h.sentDeq
    · exact h.playedPre
    · exact h.playedRun
    · intro _
      rfl
    · intro _
      exact List.mem_append_right _ (by simp)
    · exact h.openingNothing
    · exact h.consDoneHealthy
  | consOpenOk hc ho =>
    refine ⟨?_, ?_, ?_, ?_, ?_, ?_, ?_, ?_, ?_⟩ <;> dsimp only
    · exact h.cap
    · exact h.fifo
    · intro hm
      have hd := (h.sentDeq hm).1
      rw [hc] at hd
      simp at hd
    · exact h.playedPre
    · intro _
      obtain ⟨hd, hpl⟩ := h.openingNothing hc
      rw [hd, hpl]
      rfl
    · exact h.sentPushed
    · exact h.donePushed
    · intro hx
      simp at hx
    · intro _ hd
      simp at hd
  | consOpenFail hc ho =>
    refine ⟨?_, ?_, ?_, ?_, ?_, ?_, ?_, ?_, ?_⟩ <;> dsimp only
    · exact h.cap
    · exact h.fifo
    · intro hm
      exact ⟨rfl, (h.sentDeq hm).2⟩
    · exact h.playedPre
    · intro hx
      simp at hx
    · exact h.sentPushed
    · exact h.donePushed
    · intro hx
      simp at hx
    · intro hh _
      rw [hh.1] at ho
      cases ho
  | consSentinel rest hc hb =>
    refine ⟨?_, ?_, ?_, ?_, ?_, ?_, ?_, ?_, ?_⟩ <;> dsimp only
    · have hcap := h.cap
      rw [hb] at hcap
      simp only [List.length_cons] at hcap
      omega
    · rw [List.append_assoc]
      simp only [List.singleton_append]
      rw [← hb]
      exact h.fifo
    · intro _
      refine ⟨rfl, s.dequeued, rfl, ?_⟩
      intro hmem
      have hd := (h.sentDeq hmem).1
      rw [hc] at hd
      simp at hd
    · obtain ⟨t, ht⟩ := h.playedPre
      refine ⟨t, ?_⟩
      rw [segsOf_append]
      simpa [segsOf] using ht
    · intro hx
      simp at hx
    · exact h.sentPushed
    · exact h.donePushed
    · intro hx
      simp at hx
    · intro _ _
      exact List.mem_append_right _ (by simp)
  | consSegOk c rest hc hb hw =>
    refine ⟨?_, ?_, ?_, ?_, ?_, ?_, ?_, ?_, ?_⟩ <;> dsimp only
    · have hcap := h.cap
      rw [hb] at hcap
      simp only [List.length_cons] at hcap
      omega
    · rw [List.append_assoc]
      simp only [List.singleton_append]
      rw [← hb]
      exact h.fifo
    · intro hm
      rcases List.mem_append.1 hm with hm | hm
      · have hd := (h.sentDeq hm).1
        rw [hc] at hd
        simp at hd
      · simp at hm
    · refine ⟨[], ?_⟩
      rw [segsOf_append]
      simp [segsOf, h.playedRun hc]
    · intro _
      rw [segsOf_append]
      simp [segsOf, h.playedRun hc]
    · exact h.sentPushed
    · exact h.donePushed
    · intro hx
      rw [hc] at hx
      simp at hx
    · intro hh hd
      rw [hc] at hd
      simp at hd
  | consSegFail c rest hc hb hw =>
    refine ⟨?_, ?_, ?_, ?_, ?_, ?_, ?_, ?_, ?_⟩ <;> dsimp only
    · have hcap := h.cap
      rw [hb] at hcap
      simp only [List.length_cons] at hcap
      omega
    · rw [List.append_assoc]
      simp only [List.singleton_append]
      rw [← hb]
      exact h.fifo
    · intro hm
      rcases List.mem_append.1 hm with hm | hm
      · have hd := (h.sentDeq hm).1
        rw [hc] at hd
        simp at hd
      · simp at hm
    · refine ⟨[c], ?_⟩
      rw [segsOf_append]
      simp [segsOf, h.playedRun hc]
    · intro hx
      simp at hx
    · exact h.sentPushed
    · exact h.donePushed
    · intro hx
      simp at hx
    · intro hh _
      have hwf := hh.2 s.chunksTocados
      rw [hwf] at hw
      cases hw

/-- Every reachable state satisfies the invariant. -/
theorem reachable_inv {cfg : SinkCfg} {evs : List GenEvent} {s : PState}
    (h : Reachable cfg evs s) : RunInv cfg s := by
  induction h with
  | refl => exact inv_init cfg evs
  | tail _ hstep ih => exact inv_step ih hstep

/-! ## Stuck states under a healthy sink -/

/-- With a healthy sink, a run can only get stuck with both threads
finished and the sentinel delivered: the producer is never permanently
blocked and the consumer always receives the sentinel. -/
theorem stuck_healthy_completed {cfg : SinkCfg} {evs : List GenEvent} {s : PState}
    (hh : healthySink cfg) (hr : Reachable cfg evs s) (hst : Stuck cfg s) :
    s.prodPhase = ProdPhase.done ∧ s.consPhase = ConsPhase.done ∧
      ∃ pre, s.dequeued = pre ++ [QItem.sentinel] ∧ QItem.sentinel ∉ pre := by
  have hinv := reachable_inv hr
  cases hco : s.consPhase with
  | opening => exact absurd (Step.consOpenOk s hco hh.1) (hst _)
  | running =>
    exfalso
    cases hbuf : s.buffer with
    | nil =>
      cases hpp : s.prodPhase with
      | generating =>
        cases hpend : s.pending with
        | nil => exact hst _ (Step.prodFinish s hpp hpend)
        | cons e rest =>
          cases e with
          | err => exact hst _ (Step.prodRaise s rest hpp hpend)
          | result r =>
            cases r with
            | none => exact hst _ (Step.skipMarker s rest hpp hpend)
            | some c =>
              refine hst _ (Step.pushChunk s c rest hpp hpend ?_)
              rw [hbuf]
              simp
      | sentinelPending =>
        refine hst _ (Step.pushSentinel s hpp ?_)
        rw [hbuf]
        simp
      | done =>
        have hsp := hinv.donePushed hpp
        have hfifo := hinv.fifo
        rw [hbuf, List.append_nil] at hfifo
        rw [← hfifo] at hsp
        have hdone := (hinv.sentDeq hsp).1
        rw [hco] at hdone
        simp at hdone
    | cons it rest =>
      cases it with
      | sentinel => exact hst _ (Step.consSentinel s rest hco hbuf)
      | seg c => exact hst _ (Step.consSegOk s c rest hco hbuf (hh.2 _))
  | done =>
    have hmem := hinv.consDoneHealthy hh hco
    obtain ⟨hdone, pre, hpre, hnot⟩ := hinv.sentDeq hmem
    refine ⟨?_, rfl, pre, hpre, hnot⟩
    have hps : QItem.sentinel ∈ s.pushed := by
      rw [← hinv.fifo]
      exact List.mem_append_left _ hmem
    exact hinv.sentPushed hps

/-! ## Concrete run used by witnesses -/

/-- Final state of the run on an empty engine sequence with a healthy
sink: sentinel pushed and dequeued, both threads done. -/
def emptyRunFinal : PState :=
  { pending := []
    prodPhase := .done
    prodErr := false
    numChunks := 0
    buffer := []
    pushed := [QItem.sentinel]
    dequeued := [QItem.sentinel]
    consPhase := .done
    consErr := false
    chunksTocados := 0
    played := [] }

/-- The completed empty run is reachable. -/
theorem emptyRunFinal_reachable : Reachable sinkOk [] emptyRunFinal := by
  refine Relation.ReflTransGen.head (Step.consOpenOk (initState []) rfl rfl) ?_
  refine Relation.ReflTransGen.head (Step.prodFinish _ rfl rfl) ?_
  refine Relation.ReflTransGen.head (Step.pushSentinel _ rfl (by decide)) ?_
  refine Relation.ReflTransGen.head (Step.consSentinel _ [] rfl rfl) ?_
  exact Relation.ReflTransGen.refl

/-- The completed empty run is stuck: no thread has anything left to do. -/
theorem emptyRunFinal_stuck : Stuck sinkOk emptyRunFinal := by
  intro s' h
  cases h <;> simp_all [emptyRunFinal, sinkOk]

/-! ## Claim theorems C1-C4 -/

/-- **C1**: on every engine event sequence the producer pushes the
termination sentinel exactly once and as its last queue item, its error
slot is set exactly when the engine raised; and with a healthy sink a run
can only halt in a state where both threads finished and the consumer has
dequeued that one sentinel — the run completes rather than hanging. -/
theorem producer_sentinel_exactly_once_run_completes :
    (∀ evs : List GenEvent,
        (∃ pre, (producerProcess evs).1 = pre ++ [QItem.sentinel] ∧
          QItem.sentinel ∉ pre) ∧
        (producerProcess evs).2.1 = engineRaises evs) ∧
      ∀ (cfg : SinkCfg) (evs : List GenEvent) (s : PState),
        healthySink cfg → Reachable cfg evs s → Stuck cfg s →
          s.prodPhase = ProdPhase.done ∧ s.consPhase = ConsPhase.done ∧
            ∃ pre, s.dequeued = pre ++ [QItem.sentinel] ∧ QItem.sentinel ∉ pre := by
  constructor
  · intro evs
    rw [producerProcess_eq]
    refine ⟨⟨((engineYields evs).filterMap id).map QItem.seg, rfl, ?_⟩, rfl⟩
    simp
  · intro cfg evs s hh hr hst
    exact stuck_healthy_completed hh hr hst

/-- Witness for C1: the concrete empty-engine run with a healthy sink ends
completed, with the sentinel dequeued exactly once. -/
theorem producer_sentinel_exactly_once_run_completes_witness :
    emptyRunFinal.prodPhase = ProdPhase.done ∧
      emptyRunFinal.consPhase = ConsPhase.done ∧
      ∃ pre, emptyRunFinal.dequeued = pre ++ [QItem.sentinel] ∧
        QItem.sentinel ∉ pre :=
  producer_sentinel_exactly_once_run_completes.2 sinkOk [] emptyRunFinal
    ⟨rfl, fun _ => rfl⟩ emptyRunFinal_reachable emptyRunFinal_stuck

/-- **C2**: `processar_tts` reports success iff neither thread recorded an
error and the consumed count equals the produced count; in particular a
count mismatch with no recorded error yields a failed run. -/
theorem processar_tts_success_iff (s : PState) :
    runOutcome s = true ↔
      s.prodErr = false ∧ s.consErr = false ∧ s.chunksTocados = s.numChunks := by
  unfold runOutcome
  cases hpe : s.prodErr <;> cases hce : s.consErr <;> simp

/-- **C3**: every reachable state of a run keeps at most 10 items in the
channel, and any step that completes a push (growing the push history) can
only fire from a state whose channel had a free slot — a push onto a full
channel contributes no step until a dequeue frees a slot. -/
theorem channel_capacity_bounded :
    (∀ (cfg : SinkCfg) (evs : List GenEvent) (s : PState),
        Reachable cfg evs s → s.buffer.length ≤ 10) ∧
      ∀ (cfg : SinkCfg) (s s' : PState), Step cfg s s' →
        s.pushed.length < s'.pushed.length → s.buffer.length < 10 := by
  constructor
  · intro cfg evs s hr
    exact (reachable_inv hr).cap
  · intro cfg s s' hs hlt
    cases hs <;> dsimp only at hlt <;> first
      | assumption
      | simp at hlt

/-- Witness for C3: the initial state respects the bound, and a concrete
chunk push fires from a state with a free slot. -/
theorem channel_capacity_bounded_witness :
    (initState []).buffer.length ≤ 10 ∧
      (initState [GenEvent.result (some [1])]).buffer.length < 10 :=
  ⟨channel_capacity_bounded.1 sinkOk [] (initState []) Relation.ReflTransGen.refl,
    channel_capacity_bounded.2 sinkOk (initState [GenEvent.result (some [1])]) _
      (Step.pushChunk (initState [GenEvent.result (some [1])]) [1] [] rfl rfl
        (by decide))
      (by decide)⟩

/-- **C4**: in every reachable state the sequence of fully written segments
is a prefix (same order, no reorder, drop or duplicate inside it) of the
sequence of chunks pushed by the producer, and once the sentinel has been
dequeued it is the unique last dequeued item — nothing is consumed after
it. -/
theorem consumer_plays_prefix_in_order {cfg : SinkCfg} {evs : List GenEvent}
    {s : PState} (hr : Reachable cfg evs s) :
    (∃ t, s.played ++ t = segsOf s.pushed) ∧
      (QItem.sentinel ∈ s.dequeued →
        ∃ pre, s.dequeued = pre ++ [QItem.sentinel] ∧ QItem.sentinel ∉ pre) := by
  have hinv := reachable_inv hr
  constructor
  · obtain ⟨t, ht⟩ := hinv.playedPre
    refine ⟨t ++ segsOf s.buffer, ?_⟩
    rw [← List.append_assoc, ht, ← segsOf_append, hinv.fifo]
  · intro hm
    exact (hinv.sentDeq hm).2

/-- Witness for C4 on the completed empty-engine run. -/
theorem consumer_plays_prefix_in_order_witness :
    (∃ t, emptyRunFinal.played ++ t = segsOf emptyRunFinal.pushed) ∧
      (QItem.sentinel ∈ emptyRunFinal.dequeued →
        ∃ pre, emptyRunFinal.dequeued = pre ++ [QItem.sentinel] ∧
          QItem.sentinel ∉ pre) :=
  consumer_plays_prefix_in_order emptyRunFinal_reachable

/-! ## Claim theorems C7-C9 -/

/-- **C7**: the producer pushes exactly the audio-carrying results yielded
by the engine, in order — every "no audio" marker is skipped and never
pushed — and, as the engine interface only yields non-empty sample arrays,
no empty segment is ever pushed into the channel. -/
theorem producer_pushes_nonempty_in_order (evs : List GenEvent)
    (h : yieldsNonempty evs = true) :
    (producerProcess evs).1 =
        ((engineYields evs).filterMap id).map QItem.seg ++ [QItem.sentinel] ∧
      ∀ c : Segment, QItem.seg c ∈ (producerProcess evs).1 → c ≠ [] := by
  rw [producerProcess_eq]
  refine ⟨rfl, ?_⟩
  intro c hc
  rcases List.mem_append.1 hc with hc | hc
  · obtain ⟨a, ha, hac⟩ := List.mem_map.1 hc
    obtain ⟨o, ho, hoc⟩ := List.mem_filterMap.1 ha
    simp only [id] at hoc
    subst hoc
    cases hac
    exact engineYields_nonempty h ho
  · simp at hc

/-- Witness for C7 on a concrete engine sequence: two chunks around one
skipped "no audio" marker. -/
theorem producer_pushes_nonempty_in_order_witness :
    (producerProcess [GenEvent.result (some [1]), GenEvent.result none,
        GenEvent.result (some [2, 3])]).1 =
        ((engineYields [GenEvent.result (some [1]), GenEvent.result none,
          GenEvent.result (some [2, 3])]).filterMap id).map QItem.seg ++
          [QItem.sentinel] ∧
      ∀ c : Segment,
        QItem.seg c ∈ (producerProcess [GenEvent.result (some [1]),
          GenEvent.result none, GenEvent.result (some [2, 3])]).1 → c ≠ [] :=
  producer_pushes_nonempty_in_order _ (by decide)

/-- The consumer's write-failure flag stays clear when no write raises. -/
theorem consumerLoop_noFail (wf : Nat → Bool) (hwf : ∀ n, wf n = false) :
    ∀ (items : List QItem) (n : Nat), (consumerLoop wf items n).2.2 = false
  | [], _ => rfl
  | QItem.sentinel :: _, _ => rfl
  | QItem.seg c :: rest, n => by
    simp only [consumerLoop, hwf n, if_false, Bool.false_eq_true]
    exact consumerLoop_noFail wf hwf rest (n + 1)

/-- C8 as stated fails on the code: with the first sink write raising, no
segment is successfully played yet the counter reads 1 —
`chunks_tocados` is incremented before `stream.write` (main.py
lines 265-269), so the segment whose write failed is counted. -/
theorem consumer_counter_counterexample :
    (consumerLoop (fun _ => true) [QItem.seg [1], QItem.sentinel] 0).2.2 = true ∧
      (consumerLoop (fun _ => true) [QItem.seg [1], QItem.sentinel] 0).2.1 = [] ∧
      (consumerLoop (fun _ => true) [QItem.seg [1], QItem.sentinel] 0).1 = 1 :=
  ⟨rfl, rfl, rfl⟩

/-- **C8** (amended): the consumer's counter equals the number of segments
whose write was attempted — the fully written segments plus the one whose
write failed, if any; in particular when no sink write fails it equals the
number of segments successfully played. -/
theorem consumer_counter_semantics (wf : Nat → Bool) (items : List QItem) :
    (consumerLoop wf items 0).1 =
        ((consumerLoop wf items 0).2.1).length +
          (if (consumerLoop wf items 0).2.2 then 1 else 0) ∧
      ((∀ n, wf n = false) →
        (consumerLoop wf items 0).1 = ((consumerLoop wf items 0).2.1).length) := by
  have hc := consumerLoop_count wf items 0
  rw [Nat.zero_add] at hc
  refine ⟨hc, ?_⟩
  intro hwf
  rw [hc, consumerLoop_noFail wf hwf items 0]
  simp

/-- Witness for C8 on a concrete failure-free run of two segments. -/
theorem consumer_counter_semantics_witness :
    (consumerLoop (fun _ => false) [QItem.seg [1], QItem.seg [2], QItem.sentinel]
        0).1 =
      ((consumerLoop (fun _ => false) [QItem.seg [1], QItem.seg [2],
        QItem.sentinel] 0).2.1).length :=
  (consumer_counter_semantics (fun _ => false)
    [QItem.seg [1], QItem.seg [2], QItem.sentinel]).2 (fun _ => rfl)

/-- **C9**: contrary to the claim (and to the stated intent of the source's
own `TODO`/`FIXME` comments at main.py lines 242-250), the sink-open call
embeds the literal device index 9. -/
theorem consumer_sink_open_hardcoded_device :
    consumerSinkOpen.outputDeviceIndex = some 9 := rfl

/-! ## Claim C10: the clipboard.py normalizer -/

/-- A class character surviving `collapseRunsAux` is the replacement
space. -/
theorem mem_collapseRunsAux {p : Char → Bool} {x : Char} :
    ∀ {l : List Char} {b : Bool}, x ∈ collapseRunsAux p b l → p x = true → x = ' '
  | [], _, hm, _ => by simp [collapseRunsAux] at hm
  | c :: rest, b, hm, hx => by
    by_cases hp : p c
    · simp only [collapseRunsAux, hp, if_true] at hm
      cases b with
      | true => exact mem_collapseRunsAux hm hx
      | false =>
        rcases List.mem_cons.1 hm with hm | hm
        · exact hm
        · exact mem_collapseRunsAux hm hx
    · have hpc : p c = false := Bool.eq_false_iff.mpr hp
      simp only [collapseRunsAux, hpc, Bool.false_eq_true, if_false] at hm
      rcases List.mem_cons.1 hm with hm | hm
      · subst hm
        rw [hpc] at hx
        cases hx
      · exact mem_collapseRunsAux hm hx

/-- Dropping a prefix cannot add members. -/
theorem mem_of_mem_dropWhile {p : Char → Bool} {x : Char} :
    ∀ {l : List Char}, x ∈ l.dropWhile p → x ∈ l
  | [], hm => hm
  | c :: rest, hm => by
    by_cases hp : p c
    · simp only [List.dropWhile_cons, hp, if_true] at hm
      exact List.mem_cons_of_mem c (mem_of_mem_dropWhile hm)
    · simpa only [List.dropWhile_cons, hp, if_false] using hm

/-- Dropping a suffix cannot add members. -/
theorem mem_of_mem_dropWhileRight {p : Char → Bool} {x : Char} {l : List Char}
    (h : x ∈ dropWhileRight p l) : x ∈ l := by
  unfold dropWhileRight at h
  rw [List.mem_reverse] at h
  have hm := mem_of_mem_dropWhile h
  rwa [List.mem_reverse] at hm

/-- Stripping cannot add members. -/
theorem mem_of_mem_pyStrip {x : Char} {l : List Char} (h : x ∈ pyStrip l) :
    x ∈ l :=
  mem_of_mem_dropWhile (mem_of_mem_dropWhileRight h)

/-- C10's universal disagreement fails: `['a','\n','\n']` contains a
paragraph break (a double newline), yet both normalizers return
`some ['a']` — the break is stripped by both. -/
theorem clipboard_normalizer_counterexample :
    (∃ u v, ['a', '\n', '\n'] = u ++ ['\n', '\n'] ++ v) ∧
      Clipboard.limpar_texto_para_tts ['a', '\n', '\n'] =
        limpar_texto_para_tts ['a', '\n', '\n'] :=
  ⟨⟨['a'], [], rfl⟩, by decide⟩

/-- **C10** (amended): every non-`None` result of clipboard.py's
`limpar_texto_para_tts` contains no newline at all (its `\s+` substitution
collapses paragraph breaks into spaces); hence it disagrees with main.py's
normalizer on every input where the latter keeps a newline — such as
`"A\n\nB"` — though not on every input merely containing a paragraph
break. -/
theorem clipboard_normalizer_no_newline (texto out : List Char)
    (h : Clipboard.limpar_texto_para_tts texto = some out) :
    '\n' ∉ out ∧
      ∀ t, limpar_texto_para_tts texto = some t → '\n' ∈ t →
        Clipboard.limpar_texto_para_tts texto ≠ limpar_texto_para_tts texto := by
  have hnl : '\n' ∉ out := by
    intro hmem
    have hout : out = Clipboard.textoLimpo texto := by
      unfold Clipboard.limpar_texto_para_tts at h
      by_cases ht : texto = []
      · simp [ht] at h
      · simp only [ht, if_false] at h
        exact (Option.some.injEq _ _ ▸ h).symm
    rw [hout] at hmem
    have hmem2 := mem_of_mem_pyStrip hmem
    have hsp := mem_collapseRunsAux hmem2 (by decide)
    exact absurd hsp (by decide)
  refine ⟨hnl, ?_⟩
  intro t ht hnt heq
  rw [h, ht] at heq
  injection heq with h2
  subst h2
  exact hnl hnt

/-- Witness for C10: on `"A\n\nB"` the two normalizers disagree. -/
theorem clipboard_normalizer_no_newline_witness :
    Clipboard.limpar_texto_para_tts ['A', '\n', '\n', 'B'] ≠
      limpar_texto_para_tts ['A', '\n', '\n', 'B'] :=
  (clipboard_normalizer_no_newline ['A', '\n', '\n', 'B'] ['A', ' ', 'B']
    (by decide)).2 ['A', '\n', '\n', 'B'] (by decide) (by decide)

/-! ## Normalizer lemmas: the no-isolated-newline invariant -/

/-- A horizontal-whitespace character is not a newline. -/
theorem isHt_ne_nl {c : Char} (h : isHt c = true) : (c == '\n') = false := by
  by_cases hc : c = '\n'
  · subst hc
    simp [isHt] at h
  · simp [hc]

/-- A character outside the whitespace class is not a newline. -/
theorem not_isPyWs_ne_nl {c : Char} (h : isPyWs c = false) : (c == '\n') = false := by
  by_cases hc : c = '\n'
  · subst hc
    simp [isPyWs] at h
  · simp [hc]

/-- The scanner is monotone in its starting state: scanning with no
newline-credit is the strictest start. -/
theorem nlOkAux_mono : ∀ {l : List Char} {b : Bool},
    nlOkAux false l = true → nlOkAux b l = true
  | [], _, _ => rfl
  | c :: rest, b, h => by
    by_cases hc : c == '\n'
    · simp only [nlOkAux, hc, if_true, Bool.false_or, Bool.and_eq_true] at h ⊢
      exact ⟨by simp [h.1], h.2⟩
    · simpa only [nlOkAux, hc, if_false] using h

/-- `sub1Aux true` keeps a leading newline in place. -/
theorem sub1Aux_head_nl : ∀ {l : List Char}, l.head? = some '\n' →
    (sub1Aux true l).head? = some '\n'
  | c :: rest, h => by
    have hc : c = '\n' := by simpa using h
    subst hc
    simp [sub1Aux]

/-- After the first substitution every remaining newline is adjacent to
another newline: an isolated newline was replaced by a space, a kept
newline had a newline neighbour in the original, and that neighbour is
kept as well. -/
theorem sub1Aux_nlOk : ∀ (l : List Char) (b : Bool),
    nlOkAux (b && (l.head? == some '\n')) (sub1Aux b l) = true
  | [], b => rfl
  | c :: rest, b => by
    by_cases hc : c == '\n'
    · have hceq : c = '\n' := by simpa using hc
      subst hceq
      by_cases hb : b
      · subst hb
        simp only [sub1Aux, Bool.not_true, Bool.and_false, Bool.false_and,
          Bool.false_eq_true, if_false, List.head?_cons, hc, Bool.and_true]
        simp only [nlOkAux, hc, if_true, Bool.true_or, Bool.true_and]
        have ih := sub1Aux_nlOk rest true
        by_cases hh : rest.head? == some '\n'
        · simpa [hh] using ih
        · simp only [hh, Bool.and_false] at ih
          exact nlOkAux_mono ih
      · have hbf : b = false := Bool.eq_false_iff.mpr hb
        subst hbf
        by_cases hh : rest.head? == some '\n'
        · simp only [sub1Aux, hc, hh, Bool.not_true, Bool.and_false,
            Bool.false_eq_true, if_false, Bool.true_and, Bool.not_false]
          simp only [List.head?_cons, hc, Bool.false_and]
          simp only [nlOkAux, hc, if_true, Bool.false_or, Bool.and_eq_true]
          refine ⟨?_, ?_⟩
          · have hhd := sub1Aux_head_nl (l := rest) (by simpa using hh)
            simp [hhd]
          · have ih := sub1Aux_nlOk rest true
            simpa [hh] using ih
        · simp only [sub1Aux, hc, hh, Bool.not_false, Bool.and_true,
            Bool.true_and, if_true]
          simp only [List.head?_cons, hc, Bool.false_and]
          have hsp : (' ' == '\n') = false := by decide
          simp only [nlOkAux, hsp, Bool.false_eq_true, if_false]
          have ih := sub1Aux_nlOk rest true
          simpa [hh] using ih
    · have hcf : (c == '\n') = false := Bool.eq_false_iff.mpr hc
      simp only [sub1Aux, hcf, Bool.false_and, Bool.false_eq_true, if_false]
      simp only [List.head?_cons]
      have hhd : (some c == some '\n') = false := by
        simpa using hcf
      simp only [hhd, Bool.and_false]
      simp only [nlOkAux, hcf, Bool.false_eq_true, if_false]
      have ih := sub1Aux_nlOk rest false
      simpa using ih

/-- The first substitution establishes the no-isolated-newline invariant. -/
theorem sub1_nlOk (l : List Char) : nlOk (sub1 l) = true := by
  have h := sub1Aux_nlOk l false
  simpa [nlOk, sub1] using h

/-- `collapseRunsAux isHt false` keeps a leading newline in place. -/
theorem collapse_head_nl : ∀ {l : List Char}, l.head? = some '\n' →
    (collapseRunsAux isHt false l).head? = some '\n'
  | c :: rest, h => by
    have hc : c = '\n' := by simpa using h
    subst hc
    have hh : isHt '\n' = false := by decide
    simp [collapseRunsAux, hh]

/-- Collapsing space/tab runs preserves the no-isolated-newline invariant
(it never touches a newline nor moves one next to a non-newline). -/
theorem collapse_nlOk : ∀ (l : List Char) (prev b : Bool),
    nlOkAux prev l = true → nlOkAux prev (collapseRunsAux isHt b l) = true
  | [], _, _, _ => rfl
  | c :: rest, prev, b, h => by
    by_cases hp : isHt c
    · have hcf := isHt_ne_nl hp
      simp only [nlOkAux, hcf, Bool.false_eq_true, if_false] at h
      cases b with
      | true =>
        simp only [collapseRunsAux, hp, if_true]
        exact nlOkAux_mono (collapse_nlOk rest false true h)
      | false =>
        simp only [collapseRunsAux, hp, if_true]
        have hsp : (' ' == '\n') = false := by decide
        simp only [nlOkAux, hsp, Bool.false_eq_true, if_false]
        exact collapse_nlOk rest false true h
    · have hpf : isHt c = false := Bool.eq_false_iff.mpr hp
      simp only [collapseRunsAux, hpf, Bool.false_eq_true, if_false]
      by_cases hc : c == '\n'
      · simp only [nlOkAux, hc, if_true, Bool.and_eq_true] at h ⊢
        refine ⟨?_, collapse_nlOk rest true false h.2⟩
        have h1 := h.1
        rw [Bool.or_eq_true] at h1
        rcases h1 with h1 | h1
        · simp [h1]
        · have hhd := collapse_head_nl (l := rest) (by simpa using h1)
          simp [hhd]
      · have hcf : (c == '\n') = false := Bool.eq_false_iff.mpr hc
        simp only [nlOkAux, hcf, Bool.false_eq_true, if_false] at h ⊢
        exact collapse_nlOk rest false false h

/-- Dropping a whitespace prefix preserves the invariant: a whitespace
prefix is removed wholesale, so a kept newline keeps its kept neighbour. -/
theorem dropWhile_nlOk : ∀ (l : List Char) (b : Bool),
    nlOkAux b l = true → nlOkAux false (l.dropWhile isPyWs) = true
  | [], _, _ => rfl
  | c :: rest, b, h => by
    by_cases hw : isPyWs c
    · simp only [List.dropWhile_cons, hw, if_true]
      by_cases hc : c == '\n'
      · simp only [nlOkAux, hc, if_true, Bool.and_eq_true] at h
        exact dropWhile_nlOk rest true h.2
      · have hcf : (c == '\n') = false := Bool.eq_false_iff.mpr hc
        simp only [nlOkAux, hcf, Bool.false_eq_true, if_false] at h
        exact dropWhile_nlOk rest false h
    · have hwf : isPyWs c = false := Bool.eq_false_iff.mpr hw
      have hcf := not_isPyWs_ne_nl hwf
      simp only [List.dropWhile_cons, hwf, Bool.false_eq_true, if_false]
      simp only [nlOkAux, hcf, Bool.false_eq_true, if_false] at h ⊢
      exact h

/-- Cons characterization of `dropWhileRight`. -/
theorem dropWhileRight_cons (p : Char → Bool) (c : Char) (r : List Char) :
    dropWhileRight p (c :: r) =
      if dropWhileRight p r = [] then (if p c then [] else [c])
      else c :: dropWhileRight p r := by
  unfold dropWhileRight
  simp only [List.reverse_cons]
  rw [List.dropWhile_append]
  by_cases he : (r.reverse.dropWhile p).isEmpty
  · have he' : r.reverse.dropWhile p = [] := by
      simpa [List.isEmpty_iff] using he
    simp only [he, if_true, he', List.reverse_nil]
    by_cases hp : p c
    · simp [List.dropWhile, hp]
    · have hpf : p c = false := Bool.eq_false_iff.mpr hp
      simp [List.dropWhile, hpf]
  · have he' : ¬ r.reverse.dropWhile p = [] := by
      simpa [List.isEmpty_iff] using he
    have he'' : ¬ (r.reverse.dropWhile p).reverse = [] := by
      simpa using he'
    simp only [he, if_false, he'', if_false]
    simp [List.reverse_append]

/-- `dropWhileRight` keeps a nonempty result's head. -/
theorem dropWhileRight_head {p : Char → Bool} {l : List Char}
    (h : dropWhileRight p l ≠ []) : (dropWhileRight p l).head? = l.head? := by
  induction l with
  | nil => rfl
  | cons c r ih =>
    rw [dropWhileRight_cons] at h ⊢
    by_cases he : dropWhileRight p r = []
    · simp only [he, if_true] at h ⊢
      by_cases hp : p c
      · simp [hp] at h
      · have hpf : p c = false := Bool.eq_false_iff.mpr hp
        simp [hpf]
    · simp [he]

/-- Dropping a whitespace suffix preserves the invariant. -/
theorem dropWhileRight_nlOk : ∀ (l : List Char) (b : Bool),
    nlOkAux b l = true → nlOkAux b (dropWhileRight isPyWs l) = true
  | [], _, _ => rfl
  | c :: rest, b, h => by
    rw [dropWhileRight_cons]
    by_cases he : dropWhileRight isPyWs rest = []
    · simp only [he, if_true]
      by_cases hp : isPyWs c
      · simp [hp, nlOkAux]
      · have hpf : isPyWs c = false := Bool.eq_false_iff.mpr hp
        have hcf := not_isPyWs_ne_nl hpf
        simp [hpf, nlOkAux, hcf]
    · simp only [he, if_false]
      by_cases hc : c == '\n'
      · simp only [nlOkAux, hc, if_true, Bool.and_eq_true] at h ⊢
        refine ⟨?_, dropWhileRight_nlOk rest true h.2⟩
        have h1 := h.1
        rw [Bool.or_eq_true] at h1
        rcases h1 with h1 | h1
        · simp [h1]
        · rw [dropWhileRight_head he]
          simp [h1]
      · have hcf : (c == '\n') = false := Bool.eq_false_iff.mpr hc
        simp only [nlOkAux, hcf, Bool.false_eq_true, if_false] at h ⊢
        exact dropWhileRight_nlOk rest false h

/-- The full cleaning pass of main.py establishes the no-isolated-newline
invariant. -/
theorem textoLimpo_nlOk (texto : List Char) : nlOk (textoLimpo texto) = true := by
  unfold textoLimpo pyStrip
  exact dropWhileRight_nlOk _ false
    (dropWhile_nlOk _ false (collapse_nlOk _ false false (sub1_nlOk texto)))

/-! ## Normalizer lemmas: collapsed runs and stripped edges -/

/-- The output of run collapsing has no two adjacent class characters; the
scanner state coincides with the `inRun` flag (the last character emitted
during a run is the replacement space). -/
theorem collapse_noDoubleHt : ∀ (l : List Char) (b : Bool),
    noDoubleHtAux b (collapseRunsAux isHt b l) = true
  | [], _ => rfl
  | c :: rest, b => by
    by_cases hp : isHt c
    · cases b with
      | true =>
        simp only [collapseRunsAux, hp, if_true]
        exact collapse_noDoubleHt rest true
      | false =>
        simp only [collapseRunsAux, hp, if_true]
        have hsp : isHt ' ' = true := by decide
        simp only [noDoubleHtAux, Bool.false_and, Bool.not_false, Bool.true_and,
          hsp]
        exact collapse_noDoubleHt rest true
    · have hpf : isHt c = false := Bool.eq_false_iff.mpr hp
      simp only [collapseRunsAux, hpf, Bool.false_eq_true, if_false]
      simp only [noDoubleHtAux, hpf, Bool.and_false, Bool.not_false,
        Bool.true_and]
      exact collapse_noDoubleHt rest false

/-- Dropping a prefix preserves the no-double-whitespace invariant. -/
theorem dropWhile_noDoubleHt (q : Char → Bool) : ∀ (l : List Char) (b : Bool),
    noDoubleHtAux b l = true → noDoubleHtAux false (l.dropWhile q) = true
  | [], _, _ => rfl
  | c :: rest, b, h => by
    simp only [noDoubleHtAux, Bool.and_eq_true, Bool.not_eq_true'] at h
    by_cases hq : q c
    · simp only [List.dropWhile_cons, hq, if_true]
      exact dropWhile_noDoubleHt q rest (isHt c) h.2
    · have hqf : q c = false := Bool.eq_false_iff.mpr hq
      simp only [List.dropWhile_cons, hqf, Bool.false_eq_true, if_false]
      simp only [noDoubleHtAux, Bool.false_and, Bool.not_false, Bool.true_and]
      exact h.2

/-- Dropping a suffix preserves the no-double-whitespace invariant. -/
theorem dropWhileRight_noDoubleHt (q : Char → Bool) : ∀ (l : List Char) (b : Bool),
    noDoubleHtAux b l = true → noDoubleHtAux b (dropWhileRight q l) = true
  | [], _, _ => rfl
  | c :: rest, b, h => by
    simp only [noDoubleHtAux, Bool.and_eq_true, Bool.not_eq_true'] at h
    rw [dropWhileRight_cons]
    by_cases he : dropWhileRight q rest = []
    · simp only [he, if_true]
      by_cases hq : q c
      · simp [hq, noDoubleHtAux]
      · have hqf : q c = false := Bool.eq_false_iff.mpr hq
        simp [hqf, noDoubleHtAux, h.1]
    · simp only [he, if_false]
      simp only [noDoubleHtAux, Bool.and_eq_true, Bool.not_eq_true']
      exact ⟨h.1, dropWhileRight_noDoubleHt q rest (isHt c) h.2⟩

/-- The full cleaning pass of main.py leaves no double space/tab. -/
theorem textoLimpo_noDoubleHt (texto : List Char) :
    noDoubleHt (textoLimpo texto) = true := by
  unfold textoLimpo pyStrip
  exact dropWhileRight_noDoubleHt isPyWs _ false
    (dropWhile_noDoubleHt isPyWs _ false (collapse_noDoubleHt (sub1 texto) false))

/-- The head of a dropped-prefix result falls outside the class. -/
theorem head_dropWhile {p : Char → Bool} :
    ∀ {l : List Char} {x : Char}, (l.dropWhile p).head? = some x → p x = false
  | c :: rest, x, h => by
    by_cases hp : p c
    · simp only [List.dropWhile_cons, hp, if_true] at h
      exact head_dropWhile h
    · have hpf : p c = false := Bool.eq_false_iff.mpr hp
      simp only [List.dropWhile_cons, hpf, Bool.false_eq_true, if_false,
        List.head?_cons, Option.some.injEq] at h
      subst h
      exact hpf

/-- The last character of a dropped-suffix result falls outside the class. -/
theorem getLast_dropWhileRight {p : Char → Bool} {l : List Char} {x : Char}
    (h : (dropWhileRight p l).getLast? = some x) : p x = false := by
  unfold dropWhileRight at h
  rw [List.getLast?_reverse] at h
  exact head_dropWhile h

/-- The head of a stripped string is not whitespace. -/
theorem head_pyStrip {l : List Char} {x : Char}
    (h : (pyStrip l).head? = some x) : isPyWs x = false := by
  unfold pyStrip at h
  have hne : dropWhileRight isPyWs (l.dropWhile isPyWs) ≠ [] := by
    intro hnil
    rw [hnil] at h
    cases h
  rw [dropWhileRight_head hne] at h
  exact head_dropWhile h

/-- The last character of a stripped string is not whitespace. -/
theorem getLast_pyStrip {l : List Char} {x : Char}
    (h : (pyStrip l).getLast? = some x) : isPyWs x = false :=
  getLast_dropWhileRight h

/-- The full cleaning pass of main.py leaves no edge whitespace. -/
theorem textoLimpo_noEdgeWs (texto : List Char) :
    noEdgeWs (textoLimpo texto) = true := by
  unfold noEdgeWs
  rw [Bool.and_eq_true]
  constructor
  · cases hh : (textoLimpo texto).head? with
    | none => rfl
    | some x =>
      have := head_pyStrip (l := collapseRuns isHt (sub1 texto)) hh
      simp [Option.all_some, this]
  · cases hh : (textoLimpo texto).getLast? with
    | none => rfl
    | some x =>
      have := getLast_pyStrip (l := collapseRuns isHt (sub1 texto)) hh
      simp [Option.all_some, this]

/-! ## Normalizer lemmas: identity on normalized text -/

/-- With no isolated newline the first substitution changes nothing. -/
theorem sub1Aux_id : ∀ (l : List Char) (b : Bool),
    nlOkAux b l = true → sub1Aux b l = l
  | [], _, _ => rfl
  | c :: rest, b, h => by
    by_cases hc : c == '\n'
    · simp only [nlOkAux, hc, if_true, Bool.and_eq_true] at h
      have h1 := h.1
      rw [Bool.or_eq_true] at h1
      rcases h1 with h1 | h1
      · simp only [sub1Aux, h1, Bool.not_true, Bool.and_false, Bool.false_and,
          Bool.false_eq_true, if_false]
        simp only [hc]
        rw [sub1Aux_id rest true h.2]
      · simp only [sub1Aux, h1, Bool.not_true, Bool.and_false,
          Bool.false_eq_true, if_false]
        simp only [hc]
        rw [sub1Aux_id rest true h.2]
    · have hcf : (c == '\n') = false := Bool.eq_false_iff.mpr hc
      simp only [nlOkAux, hcf, Bool.false_eq_true, if_false] at h
      simp only [sub1Aux, hcf, Bool.false_and, Bool.false_eq_true, if_false]
      rw [sub1Aux_id rest false h]

/-- With no isolated newline `sub1` is the identity. -/
theorem sub1_id {l : List Char} (h : nlOk l = true) : sub1 l = l :=
  sub1Aux_id l false h

/-- With no double space/tab and only plain spaces as horizontal
whitespace, run collapsing changes nothing. -/
theorem collapse_id : ∀ (l : List Char) (b : Bool),
    noDoubleHtAux b l = true → (∀ x ∈ l, isHt x = true → x = ' ') →
    collapseRunsAux isHt b l = l
  | [], _, _, _ => rfl
  | c :: rest, b, h, hmem => by
    simp only [noDoubleHtAux, Bool.and_eq_true, Bool.not_eq_true'] at h
    by_cases hp : isHt c
    · have hb : b = false := by
        have h1 := h.1
        rw [hp, Bool.and_true] at h1
        exact h1
      subst hb
      have hsp : c = ' ' := hmem c (List.mem_cons_self c rest) hp
      have h2 := h.2
      rw [hp] at h2
      simp only [collapseRunsAux, hp, if_true]
      rw [collapse_id rest true h2 (fun x hx => hmem x (List.mem_cons_of_mem c hx))]
      rw [hsp]
      simp
    · have hpf : isHt c = false := Bool.eq_false_iff.mpr hp
      have h2 := h.2
      rw [hpf] at h2
      simp only [collapseRunsAux, hpf, Bool.false_eq_true, if_false]
      rw [collapse_id rest false h2 (fun x hx => hmem x (List.mem_cons_of_mem c hx))]

/-- With no double space/tab and only plain spaces, `collapseRuns isHt` is
the identity. -/
theorem collapseRuns_id {l : List Char} (h : noDoubleHt l = true)
    (hmem : ∀ x ∈ l, isHt x = true → x = ' ') : collapseRuns isHt l = l :=
  collapse_id l false h hmem

/-- Dropping a prefix of class characters from a list whose head is outside
the class changes nothing. -/
theorem dropWhile_id {p : Char → Bool} {l : List Char}
    (h : ∀ x, l.head? = some x → p x = false) : l.dropWhile p = l := by
  cases l with
  | nil => rfl
  | cons c rest =>
    have hc := h c rfl
    simp [List.dropWhile_cons, hc]

/-- Dropping a suffix of class characters from a list whose last character
is outside the class changes nothing. -/
theorem dropWhileRight_id {p : Char → Bool} {l : List Char}
    (h : ∀ x, l.getLast? = some x → p x = false) : dropWhileRight p l = l := by
  unfold dropWhileRight
  have hrev : l.reverse.dropWhile p = l.reverse := by
    refine dropWhile_id ?_
    intro x hx
    rw [List.head?_reverse] at hx
    exact h x hx
  rw [hrev, List.reverse_reverse]

/-- With no edge whitespace, stripping changes nothing. -/
theorem pyStrip_id {l : List Char} (h : noEdgeWs l = true) : pyStrip l = l := by
  unfold noEdgeWs at h
  rw [Bool.and_eq_true] at h
  have hhead : ∀ x, l.head? = some x → isPyWs x = false := by
    intro x hx
    have h1 := h.1
    rw [hx] at h1
    simpa using h1
  have hlast : ∀ x, l.getLast? = some x → isPyWs x = false := by
    intro x hx
    have h2 := h.2
    rw [hx] at h2
    simpa using h2
  unfold pyStrip
  rw [dropWhile_id hhead]
  exact dropWhileRight_id hlast

/-- A `some` result of the normalizer is the nonempty cleaned text. -/
theorem limpar_some {texto out : List Char}
    (h : limpar_texto_para_tts texto = some out) :
    out = textoLimpo texto ∧ out ≠ [] := by
  unfold limpar_texto_para_tts at h
  by_cases h1 : texto = []
  · simp [h1] at h
  · by_cases h2 : textoLimpo texto = []
    · simp [h1, h2] at h
    · rw [if_neg h1, if_neg h2] at h
      injection h with h
      refine ⟨h.symm, ?_⟩
      rw [← h]
      exact h2

/-- Every horizontal-whitespace character surviving the cleaning pass is a
plain space. -/
theorem textoLimpo_ht_space {texto : List Char} {x : Char}
    (hx : x ∈ textoLimpo texto) (hht : isHt x = true) : x = ' ' :=
  mem_collapseRunsAux (mem_of_mem_pyStrip hx) hht

/-! ## Claim theorems C5-C6 -/

/-- **C5**: the normalizer returns `None` exactly when the raw input is
empty or cleaning leaves an empty string; every `some` result has no
single isolated newline, no run of two or more space/tab characters, and
no leading or trailing whitespace. -/
theorem normalizer_contract (texto : List Char) :
    (limpar_texto_para_tts texto = none ↔ texto = [] ∨ textoLimpo texto = []) ∧
      ∀ out, limpar_texto_para_tts texto = some out →
        nlOk out = true ∧ noDoubleHt out = true ∧ noEdgeWs out = true := by
  constructor
  · unfold limpar_texto_para_tts
    by_cases h1 : texto = []
    · simp [h1]
    · by_cases h2 : textoLimpo texto = []
      · simp [h1, h2]
      · simp [h1, h2]
  · intro out h
    obtain ⟨ho, -⟩ := limpar_some h
    subst ho
    exact ⟨textoLimpo_nlOk texto, textoLimpo_noDoubleHt texto,
      textoLimpo_noEdgeWs texto⟩

/-- Witness for C5 on the concrete soft-wrapped input `"a\nb"`. -/
theorem normalizer_contract_witness :
    nlOk ['a', ' ', 'b'] = true ∧ noDoubleHt ['a', ' ', 'b'] = true ∧
      noEdgeWs ['a', ' ', 'b'] = true :=
  (normalizer_contract ['a', '\n', 'b']).2 ['a', ' ', 'b'] (by decide)

/-- **C6**: the normalizer is idempotent — applying it to its own `some`
result returns that result unchanged (`bind` makes applying it to a `None`
result the identity). -/
theorem normalizer_idempotent (texto : List Char) :
    (limpar_texto_para_tts texto).bind limpar_texto_para_tts =
      limpar_texto_para_tts texto := by
  cases h : limpar_texto_para_tts texto with
  | none => rfl
  | some out =>
    obtain ⟨ho, hne⟩ := limpar_some h
    show limpar_texto_para_tts out = some out
    have hnl : nlOk out = true := by
      rw [ho]
      exact textoLimpo_nlOk texto
    have hdh : noDoubleHt out = true := by
      rw [ho]
      exact textoLimpo_noDoubleHt texto
    have hew : noEdgeWs out = true := by
      rw [ho]
      exact textoLimpo_noEdgeWs texto
    have hms : ∀ x ∈ out, isHt x = true → x = ' ' := by
      intro x hx hht
      rw [ho] at hx
      exact textoLimpo_ht_space hx hht
    have hid : textoLimpo out = out := by
      unfold textoLimpo
      rw [sub1_id hnl, collapseRuns_id hdh hms]
      exact pyStrip_id hew
    unfold limpar_texto_para_tts
    rw [hid, if_neg hne, if_neg hne]
